import Mathlib

/-!
Verification development for the quant.ai.s strategy-execution and
RL-training engine.

Shallow embedding of:
* `processTradeLogic` (src/services/tradeUtils.ts): the trade ledger that
  turns a BUY/SELL intent into an execution and updates the position.
* the Pyodide wrapper in src/services/pythonEngine.ts: `StrategyContext`
  (`order`, `sma`), `safe_float`, DQN (`MicroModel`, `DQNAgent.replay`,
  `decay_epsilon`), the standard-mode replay loop with `max_lookback`,
  and `runPythonStrategyBatch` (the worker-pool dispatcher).

JavaScript / Python numbers are modelled as rationals (`ℚ`), with the
IEEE special values NaN and ±Infinity represented explicitly by the
`PyFloat` type where a claim is about them.
-/

namespace QuantAI

/-! ## TradeLedger: `processTradeLogic` (src/services/tradeUtils.ts) -/

/-- `CostConfig` of tradeUtils.ts. -/
structure CostConfig where
  POINT_VALUE : ℚ
  TAX_RATE : ℚ
  COMMISSION : ℚ
  SLIPPAGE : ℚ
deriving DecidableEq

/-- `DEFAULT_COSTS` of tradeUtils.ts. -/
def DEFAULT_COSTS : CostConfig :=
  { POINT_VALUE := 200, TAX_RATE := 2 / 100000, COMMISSION := 50, SLIPPAGE := 1 }

inductive Side where
  | buy
  | sell
deriving DecidableEq

/-- A position `{size, avgPrice}`.  In the TS source both fields are
`number`; sizes are rationals here (callers pass integral lot counts). -/
structure Pos where
  size : ℚ
  avgPrice : ℚ
deriving DecidableEq

/-- `Math.round` of JavaScript: half-way cases round toward +∞. -/
def jsRound (x : ℚ) : ℤ := ⌊x + 1 / 2⌋

/-- Result record of `processTradeLogic` (fields relevant to the ledger;
the `trade.id` string built from `Date.now()`/`Math.random()` is not
modelled). -/
structure TradeOutcome where
  execPrice : ℚ
  newPos : Pos
  realizedGrossPnL : ℚ
  fees : ℚ
  tax : ℚ
  commission : ℚ
  netPnL : ℚ
deriving DecidableEq

/-- The execution price of tradeUtils.ts lines 28-30: BUY fills at
`rawPrice + SLIPPAGE`, SELL at `rawPrice - SLIPPAGE`, unless slippage is
disabled. -/
def execPriceOf (side : Side) (rawPrice : ℚ) (costs : CostConfig)
    (useSlippage : Bool) : ℚ :=
  if useSlippage then
    match side with
    | .buy => rawPrice + costs.SLIPPAGE
    | .sell => rawPrice - costs.SLIPPAGE
  else rawPrice

/-- `tradeSign` of tradeUtils.ts line 42. -/
def tradeSign (side : Side) : ℚ := match side with | .buy => 1 | .sell => -1

/-- `isClosing` of tradeUtils.ts line 44. -/
def isClosing (side : Side) (currentPos : Pos) : Prop :=
  (currentPos.size > 0 ∧ side = .sell) ∨ (currentPos.size < 0 ∧ side = .buy)

instance (side : Side) (pos : Pos) : Decidable (isClosing side pos) := by
  unfold isClosing; infer_instance

/-- The reversal condition of tradeUtils.ts line 59. -/
def flipsPosition (currentPos : Pos) (newSize : ℚ) : Prop :=
  (currentPos.size > 0 ∧ newSize < 0) ∨ (currentPos.size < 0 ∧ newSize > 0)

instance (pos : Pos) (n : ℚ) : Decidable (flipsPosition pos n) := by
  unfold flipsPosition; infer_instance

/-- `processTradeLogic` of tradeUtils.ts (lines 15-88), translated
branch by branch.  The one divergence from JavaScript semantics: when
`|currentPos.size| + size = 0` the source computes `0/0 = NaN` while `ℚ`
division yields `0`; every theorem below only uses `size > 0`, where the
two agree. -/
def processTradeLogic (side : Side) (rawPrice : ℚ) (size : ℚ)
    (currentPos : Pos) (costs : CostConfig := DEFAULT_COSTS)
    (useSlippage : Bool := true) : TradeOutcome :=
  let execPrice := execPriceOf side rawPrice costs useSlippage
  let tax : ℚ := jsRound (execPrice * costs.POINT_VALUE * size * costs.TAX_RATE)
  let commission := costs.COMMISSION * size
  let fees := commission + tax
  let tradeQty := size * tradeSign side
  if isClosing side currentPos then
    let closeQty := min |currentPos.size| size
    let realizedGrossPnL :=
      if currentPos.size > 0 then
        (execPrice - currentPos.avgPrice) * closeQty * costs.POINT_VALUE
      else
        (currentPos.avgPrice - execPrice) * closeQty * costs.POINT_VALUE
    let newSize := currentPos.size + tradeQty
    let newAvgPrice :=
      if flipsPosition currentPos newSize then execPrice
      else if newSize = 0 then 0
      else currentPos.avgPrice
    { execPrice := execPrice
      newPos := { size := newSize, avgPrice := newAvgPrice }
      realizedGrossPnL := realizedGrossPnL
      fees := fees, tax := tax, commission := commission
      netPnL := realizedGrossPnL - fees }
  else
    let totalValue := |currentPos.size| * currentPos.avgPrice + size * execPrice
    let totalSize := |currentPos.size| + size
    let newAvgPrice := totalValue / totalSize
    let newSize := currentPos.size + tradeQty
    { execPrice := execPrice
      newPos := { size := newSize, avgPrice := newAvgPrice }
      realizedGrossPnL := 0
      fees := fees, tax := tax, commission := commission
      netPnL := 0 - fees }

/-- Characterization of the opening/adding branch. -/
lemma processTradeLogic_newPos_open (side : Side) (rawPrice size : ℚ)
    (pos : Pos) (costs : CostConfig) (us : Bool)
    (h : ¬ isClosing side pos) :
    (processTradeLogic side rawPrice size pos costs us).newPos =
      ⟨pos.size + size * tradeSign side,
        (|pos.size| * pos.avgPrice + size * execPriceOf side rawPrice costs us) /
          (|pos.size| + size)⟩ := by
  simp only [processTradeLogic, if_neg h]

/-- Characterization of the closing branch. -/
lemma processTradeLogic_newPos_close (side : Side) (rawPrice size : ℚ)
    (pos : Pos) (costs : CostConfig) (us : Bool)
    (h : isClosing side pos) :
    (processTradeLogic side rawPrice size pos costs us).newPos =
      ⟨pos.size + size * tradeSign side,
        if flipsPosition pos (pos.size + size * tradeSign side) then
          execPriceOf side rawPrice costs us
        else if pos.size + size * tradeSign side = 0 then 0
        else pos.avgPrice⟩ := by
  simp only [processTradeLogic, if_pos h]

/-- One trade intent handed to the ledger. -/
structure TradeIntent where
  side : Side
  rawPrice : ℚ
  size : ℚ
deriving DecidableEq

/-- Apply a sequence of trades through `processTradeLogic`, threading the
position. -/
def applyTrades (costs : CostConfig) (useSlippage : Bool) :
    Pos → List TradeIntent → Pos
  | pos, [] => pos
  | pos, t :: ts =>
      applyTrades costs useSlippage
        (processTradeLogic t.side t.rawPrice t.size pos costs useSlippage).newPos ts

/-- The signed quantity of a trade: `+size` for BUY, `-size` for SELL. -/
def signedQty (t : TradeIntent) : ℚ :=
  match t.side with | .buy => t.size | .sell => -t.size

/-- In both branches of `processTradeLogic`, the resulting size is the old
size plus the signed quantity. -/
lemma processTradeLogic_size (side : Side) (rawPrice size : ℚ) (pos : Pos)
    (costs : CostConfig) (us : Bool) :
    (processTradeLogic side rawPrice size pos costs us).newPos.size =
      pos.size + signedQty ⟨side, rawPrice, size⟩ := by
  by_cases h : isClosing side pos
  · rw [processTradeLogic_newPos_close side rawPrice size pos costs us h]
    cases side <;> simp [signedQty, tradeSign]
  · rw [processTradeLogic_newPos_open side rawPrice size pos costs us h]
    cases side <;> simp [signedQty, tradeSign]

/-- The position-shape invariant preserved by one ledger step: either the
position is flat with zero average price, or it is open with a strictly
positive average price (given positive size and execution price). -/
lemma processTradeLogic_invariant (side : Side) (rawPrice size : ℚ) (pos : Pos)
    (costs : CostConfig) (us : Bool)
    (hs : 0 < size) (he : 0 < execPriceOf side rawPrice costs us)
    (hp : (pos.size = 0 ∧ pos.avgPrice = 0) ∨ (pos.size ≠ 0 ∧ 0 < pos.avgPrice)) :
    ((processTradeLogic side rawPrice size pos costs us).newPos.size = 0 ∧
      (processTradeLogic side rawPrice size pos costs us).newPos.avgPrice = 0) ∨
    ((processTradeLogic side rawPrice size pos costs us).newPos.size ≠ 0 ∧
      0 < (processTradeLogic side rawPrice size pos costs us).newPos.avgPrice) := by
  by_cases hclose : isClosing side pos
  · rw [processTradeLogic_newPos_close side rawPrice size pos costs us hclose]
    by_cases hflip : flipsPosition pos (pos.size + size * tradeSign side)
    · rw [if_pos hflip]
      rcases hflip with ⟨_, hy⟩ | ⟨_, hy⟩
      · exact Or.inr ⟨ne_of_lt hy, he⟩
      · exact Or.inr ⟨ne_of_gt hy, he⟩
    · rw [if_neg hflip]
      by_cases hzero : pos.size + size * tradeSign side = 0
      · rw [if_pos hzero]
        exact Or.inl ⟨hzero, rfl⟩
      · rw [if_neg hzero]
        rcases hp with ⟨h0, _⟩ | ⟨_, ha⟩
        · rcases hclose with ⟨h1, _⟩ | ⟨h1, _⟩ <;> rw [h0] at h1 <;>
            exact absurd h1 (lt_irrefl 0)
        · exact Or.inr ⟨hzero, ha⟩
  · rw [processTradeLogic_newPos_open side rawPrice size pos costs us hclose]
    have hns : pos.size + size * tradeSign side ≠ 0 := by
      cases side with
      | buy =>
        have hc : ¬ pos.size < 0 := fun hneg => hclose (Or.inr ⟨hneg, rfl⟩)
        push_neg at hc
        simp only [tradeSign]
        nlinarith
      | sell =>
        have hc : ¬ pos.size > 0 := fun hpos => hclose (Or.inl ⟨hpos, rfl⟩)
        push_neg at hc
        simp only [tradeSign]
        nlinarith
    refine Or.inr ⟨hns, div_pos ?_ ?_⟩
    · rcases hp with ⟨h0, ha⟩ | ⟨h0, ha⟩
      · rw [h0, ha]; simpa using mul_pos hs he
      · have := abs_pos.mpr h0
        nlinarith
    · have := abs_nonneg pos.size
      linarith

lemma applyTrades_size (costs : CostConfig) (us : Bool) (pos : Pos) :
    ∀ ts : List TradeIntent,
      (applyTrades costs us pos ts).size = pos.size + (ts.map signedQty).sum := by
  intro ts
  induction ts generalizing pos with
  | nil => simp [applyTrades]
  | cons t ts ih =>
    simp only [applyTrades, List.map_cons, List.sum_cons]
    rw [ih, processTradeLogic_size]
    ring

lemma applyTrades_invariant (costs : CostConfig) (us : Bool) :
    ∀ (ts : List TradeIntent) (pos : Pos),
      (∀ t ∈ ts, 0 < t.size ∧ 0 < execPriceOf t.side t.rawPrice costs us) →
      ((pos.size = 0 ∧ pos.avgPrice = 0) ∨ (pos.size ≠ 0 ∧ 0 < pos.avgPrice)) →
      (((applyTrades costs us pos ts).size = 0 ∧
          (applyTrades costs us pos ts).avgPrice = 0) ∨
        ((applyTrades costs us pos ts).size ≠ 0 ∧
          0 < (applyTrades costs us pos ts).avgPrice)) := by
  intro ts
  induction ts with
  | nil => intro pos _ hp; exact hp
  | cons t ts ih =>
    intro pos hmem hp
    have ht := hmem t (List.mem_cons_self t ts)
    exact ih _ (fun u hu => hmem u (List.mem_cons_of_mem t hu))
      (processTradeLogic_invariant t.side t.rawPrice t.size pos costs us
        ht.1 ht.2 hp)

/-- C2 counterexample.  A single SELL of 1 lot at raw price 1 with the
default costs (slippage 1 point) executes at price 0: the resulting
position has `size = -1` but `avgPrice = 0`, so
`size == 0 ⟺ avgPrice == 0` fails. -/
theorem processTradeLogic_zero_iff_counterexample :
    (applyTrades DEFAULT_COSTS true ⟨0, 0⟩ [⟨.sell, 1, 1⟩]).size = -1 ∧
    (applyTrades DEFAULT_COSTS true ⟨0, 0⟩ [⟨.sell, 1, 1⟩]).avgPrice = 0 ∧
    ¬ ((applyTrades DEFAULT_COSTS true ⟨0, 0⟩ [⟨.sell, 1, 1⟩]).size = 0 ↔
       (applyTrades DEFAULT_COSTS true ⟨0, 0⟩ [⟨.sell, 1, 1⟩]).avgPrice = 0) := by
  have h : applyTrades DEFAULT_COSTS true ⟨0, 0⟩ [⟨.sell, 1, 1⟩] =
      ⟨-1, 0⟩ := by
    simp only [applyTrades, processTradeLogic, execPriceOf, DEFAULT_COSTS,
      isClosing, flipsPosition, tradeSign]
    norm_num
  rw [h]
  norm_num

/-- C2 (amended).  Starting from the flat position, the final size equals
the signed sum of all applied quantities — unconditionally; and when every
trade has positive size and a positive execution price,
`size == 0 ⟺ avgPrice == 0`. -/
theorem applyTrades_signedSum_and_zero_iff (costs : CostConfig) (us : Bool)
    (ts : List TradeIntent) :
    (applyTrades costs us ⟨0, 0⟩ ts).size = (ts.map signedQty).sum ∧
    ((∀ t ∈ ts, 0 < t.size ∧ 0 < execPriceOf t.side t.rawPrice costs us) →
      ((applyTrades costs us ⟨0, 0⟩ ts).size = 0 ↔
        (applyTrades costs us ⟨0, 0⟩ ts).avgPrice = 0)) := by
  constructor
  · simpa using applyTrades_size costs us ⟨0, 0⟩ ts
  · intro h
    rcases applyTrades_invariant costs us ts ⟨0, 0⟩ h
      (Or.inl ⟨rfl, rfl⟩) with ⟨h1, h2⟩ | ⟨h1, h2⟩
    · rw [h1, h2]
    · exact ⟨fun hz => absurd hz h1, fun hz => absurd hz (ne_of_gt h2)⟩

/-- Witness for `applyTrades_signedSum_and_zero_iff`: open long 2 lots at
raw price 100 and close them at raw price 90, with default costs. -/
theorem applyTrades_signedSum_and_zero_iff_witness :
    (∀ t ∈ ([⟨.buy, 100, 2⟩, ⟨.sell, 90, 2⟩] : List TradeIntent),
      0 < t.size ∧ 0 < execPriceOf t.side t.rawPrice DEFAULT_COSTS true) ∧
    (applyTrades DEFAULT_COSTS true ⟨0, 0⟩
        [⟨.buy, 100, 2⟩, ⟨.sell, 90, 2⟩]).size =
      (([⟨.buy, 100, 2⟩, ⟨.sell, 90, 2⟩] : List TradeIntent).map signedQty).sum ∧
    ((applyTrades DEFAULT_COSTS true ⟨0, 0⟩
        [⟨.buy, 100, 2⟩, ⟨.sell, 90, 2⟩]).size = 0 ↔
      (applyTrades DEFAULT_COSTS true ⟨0, 0⟩
        [⟨.buy, 100, 2⟩, ⟨.sell, 90, 2⟩]).avgPrice = 0) := by
  have hmem : ∀ t ∈ ([⟨.buy, 100, 2⟩, ⟨.sell, 90, 2⟩] : List TradeIntent),
      0 < t.size ∧ 0 < execPriceOf t.side t.rawPrice DEFAULT_COSTS true := by
    intro t ht
    fin_cases ht <;> exact ⟨by norm_num, by norm_num [execPriceOf, DEFAULT_COSTS]⟩
  have h := applyTrades_signedSum_and_zero_iff DEFAULT_COSTS true
    [⟨.buy, 100, 2⟩, ⟨.sell, 90, 2⟩]
  exact ⟨hmem, h.1, h.2 hmem⟩

/-- C3.  When a trade opens or adds to a position (not closing), the new
average price is the size-weighted mean
`(|oldSize|*oldAvg + size*execPrice) / (|oldSize|+size)`; and opening long
1 lot at execution price 100 then adding 1 lot at execution price 110
(slippage disabled, so fills are at the stated prices) yields the
position `{size := 2, avgPrice := 105}`. -/
theorem processTradeLogic_weightedMean_avgPrice :
    (∀ (side : Side) (rawPrice size : ℚ) (pos : Pos) (costs : CostConfig)
        (us : Bool), ¬ isClosing side pos →
      (processTradeLogic side rawPrice size pos costs us).newPos.avgPrice =
        (|pos.size| * pos.avgPrice + size * execPriceOf side rawPrice costs us) /
          (|pos.size| + size)) ∧
    applyTrades DEFAULT_COSTS false ⟨0, 0⟩
      [⟨.buy, 100, 1⟩, ⟨.buy, 110, 1⟩] = ⟨2, 105⟩ := by
  constructor
  · intro side rawPrice size pos costs us h
    rw [processTradeLogic_newPos_open side rawPrice size pos costs us h]
  · simp only [applyTrades, processTradeLogic, execPriceOf, DEFAULT_COSTS,
      isClosing, flipsPosition, tradeSign]
    norm_num
    simp

/-- Witness for `processTradeLogic_weightedMean_avgPrice`: adding 1 lot at
raw price 120 (default slippage, execution price 121) to a long position
of 2 lots at average 105 re-averages to `(2*105 + 121)/3`. -/
theorem processTradeLogic_weightedMean_avgPrice_witness :
    ¬ isClosing Side.buy ⟨2, 105⟩ ∧
    (processTradeLogic Side.buy 120 1 ⟨2, 105⟩ DEFAULT_COSTS
        true).newPos.avgPrice =
      (|(2 : ℚ)| * 105 + 1 * execPriceOf Side.buy 120 DEFAULT_COSTS true) /
        (|(2 : ℚ)| + 1) := by
  have h : ¬ isClosing Side.buy ⟨2, 105⟩ := by
    simp [isClosing]
  exact ⟨h, processTradeLogic_weightedMean_avgPrice.1 Side.buy 120 1
    ⟨2, 105⟩ DEFAULT_COSTS true h⟩

/-! ## DQNAgent epsilon decay (pythonEngine.ts lines 208-214, 272-274) -/

/-- `DQNAgent.epsilon_min` (pythonEngine.ts line 213). -/
def epsilon_min : ℚ := 1 / 100

/-- `DQNAgent.decay_epsilon` (pythonEngine.ts lines 272-274): multiply by
the decay factor only while epsilon is still above the floor. -/
def decay_epsilon (epsilonDecay : ℚ) (epsilon : ℚ) : ℚ :=
  if epsilon > epsilon_min then epsilon * epsilonDecay else epsilon

/-- `n` episodes of epsilon decay. -/
def iterDecay (epsilonDecay : ℚ) : ℕ → ℚ → ℚ
  | 0, eps => eps
  | n + 1, eps => iterDecay epsilonDecay n (decay_epsilon epsilonDecay eps)

/-- C4 counterexample.  Starting at `ε = 0.02 > 0.01` with decay factor
`0.1 ∈ (0,1)`, one episode of decay yields `0.002 < 0.01`: the claimed
floor is crossed. -/
theorem decay_epsilon_floor_counterexample :
    (1 : ℚ) / 100 < 1 / 50 ∧ (0 : ℚ) < 1 / 10 ∧ (1 : ℚ) / 10 < 1 ∧
    iterDecay (1 / 10) 1 (1 / 50) < 1 / 100 := by
  refine ⟨by norm_num, by norm_num, by norm_num, ?_⟩
  have h : iterDecay ((1 : ℚ) / 10) 1 (1 / 50) = 1 / 500 := by
    simp only [iterDecay, decay_epsilon, epsilon_min]
    norm_num
  rw [h]
  norm_num

/-- C4 (amended).  For every starting epsilon above the floor `0.01` and
every decay factor `d ∈ (0,1)`, iterated decay never produces a value of
`0.01 * d` or below (so the floor can be undershot by at most one
multiplicative step); moreover any epsilon at or below the floor is left
unchanged by a decay step. -/
theorem iterDecay_lowerBound (d : ℚ) (hd0 : 0 < d) (hd1 : d < 1) :
    (∀ eps0 : ℚ, epsilon_min < eps0 →
      ∀ n : ℕ, epsilon_min * d < iterDecay d n eps0) ∧
    (∀ eps : ℚ, eps ≤ epsilon_min → decay_epsilon d eps = eps) := by
  constructor
  · have key : ∀ (n : ℕ) (eps : ℚ), epsilon_min * d < eps →
        epsilon_min * d < iterDecay d n eps := by
      intro n
      induction n with
      | zero => intro eps h; exact h
      | succ n ih =>
        intro eps h
        simp only [iterDecay]
        apply ih
        unfold decay_epsilon
        split_ifs with hgt
        · exact (mul_lt_mul_right hd0).mpr hgt
        · exact h
    intro eps0 h0 n
    apply key
    calc epsilon_min * d < epsilon_min * 1 := by
          exact (mul_lt_mul_left (by norm_num [epsilon_min])).mpr hd1
      _ = epsilon_min := mul_one _
      _ < eps0 := h0
  · intro eps h
    unfold decay_epsilon
    rw [if_neg (not_lt.mpr h)]

/-- Witness for `iterDecay_lowerBound` at `d = 1/2`, `ε₀ = 1`, `n = 3`:
three decays give `1/8`, still above `0.01·(1/2) = 0.005`. -/
theorem iterDecay_lowerBound_witness :
    (0 : ℚ) < 1 / 2 ∧ (1 : ℚ) / 2 < 1 ∧ epsilon_min < 1 ∧
    epsilon_min * (1 / 2) < iterDecay (1 / 2) 3 1 := by
  refine ⟨by norm_num, by norm_num, by norm_num [epsilon_min], ?_⟩
  exact (iterDecay_lowerBound (1 / 2) (by norm_num) (by norm_num)).1 1
    (by norm_num [epsilon_min]) 3

/-! ## `StrategyContext.sma` (pythonEngine.ts lines 118-131) -/

/-- The `for i in range(period, len(data))` loop of `sma`: at index `i`
the running sum is updated by `- data[i-period] + data[i]` and the new
mean appended.  `getD _ 0` stands for Python indexing; every access is
in range whenever `period ≤ i`. -/
def smaLoop (data : List ℚ) (period : ℕ) (i : ℕ) (wsum : ℚ) : List ℚ :=
  if h : i < data.length then
    let wsum2 := wsum - data.getD (i - period) 0 + data.getD i 0
    (wsum2 / period) :: smaLoop data period (i + 1) wsum2
  else []
termination_by data.length - i
decreasing_by omega

/-- `StrategyContext.sma` (pythonEngine.ts lines 118-131).  `none` models
a raised Python exception: `data[-1]` on an empty list (IndexError) and
division by `period = 0` (ZeroDivisionError). -/
def sma (data : List ℚ) (period : ℕ) : Option (List ℚ) :=
  if data.length < period then
    match data.getLast? with
    | none => none
    | some x => some (List.replicate data.length x)
  else if period = 0 then none
  else
    let wsum0 := (data.take period).sum
    let curr := wsum0 / period
    some (List.replicate (period - 1) curr ++ [curr] ++
      smaLoop data period period wsum0)

/-- Sum of the sliding window of length `period` that ends just before
index `i` (Python `sum(data[i-period:i])` for `period ≤ i ≤ len`). -/
def windowSum (data : List ℚ) (period : ℕ) (i : ℕ) : ℚ :=
  ((data.drop (i - period)).take period).sum

/-- Shifting the window one step to the right drops the oldest element
and gains the newest one. -/
lemma windowSum_succ (data : List ℚ) (period : ℕ) (i : ℕ)
    (hp : 1 ≤ period) (hpi : period ≤ i) (hil : i < data.length) :
    windowSum data period (i + 1) =
      windowSum data period i - data.getD (i - period) 0 + data.getD i 0 := by
  obtain ⟨q, rfl⟩ : ∃ q, period = q + 1 := ⟨period - 1, by omega⟩
  have ha : i - (q + 1) < data.length := lt_of_le_of_lt (Nat.sub_le i (q + 1)) hil
  have hdrop : data.drop (i - (q + 1)) =
      data[i - (q + 1)] :: data.drop (i - (q + 1) + 1) :=
    List.drop_eq_getElem_cons ha
  have hgetDa : data.getD (i - (q + 1)) 0 = data[i - (q + 1)] :=
    List.getD_eq_getElem data 0 ha
  have hgetDi : data.getD i 0 = data[i] := List.getD_eq_getElem data 0 hil
  have htail : windowSum data (q + 1) i =
      data[i - (q + 1)] + ((data.drop (i - (q + 1) + 1)).take q).sum := by
    rw [windowSum, hdrop, List.take_succ_cons, List.sum_cons]
  have hidx : (data.drop (i - (q + 1) + 1))[q]? = some data[i] := by
    rw [List.getElem?_drop]
    have harith : i - (q + 1) + 1 + q = i := by omega
    rw [harith, List.getElem?_eq_getElem hil]
  have hlast : windowSum data (q + 1) (i + 1) =
      ((data.drop (i - (q + 1) + 1)).take q).sum + data[i] := by
    have hsub : i + 1 - (q + 1) = i - (q + 1) + 1 := by omega
    rw [windowSum, hsub, List.take_succ, List.sum_append, hidx]
    simp
  rw [hlast, htail, hgetDa, hgetDi]
  ring

/-- The running-sum loop of `sma` computes exactly the sliding-window
means: starting at index `i` with the window sum ending before `i`, it
produces the means of the windows ending at `i`, `i+1`, …, `len-1`. -/
lemma smaLoop_eq_windowMeans (data : List ℚ) (period : ℕ) (hp : 1 ≤ period) :
    ∀ (m i : ℕ), data.length - i = m → period ≤ i →
      smaLoop data period i (windowSum data period i) =
        (List.range m).map
          (fun k => windowSum data period (i + 1 + k) / period) := by
  intro m
  induction m with
  | zero =>
    intro i hm _
    have hstop : ¬ i < data.length := by omega
    rw [smaLoop]
    simp [hstop]
  | succ m ih =>
    intro i hm hpi
    have hil : i < data.length := by omega
    rw [smaLoop]
    simp only [hil, dif_pos]
    have hw : windowSum data period i - data.getD (i - period) 0 +
        data.getD i 0 = windowSum data period (i + 1) :=
      (windowSum_succ data period i hp hpi hil).symm
    rw [hw, ih (i + 1) (by omega) (by omega)]
    rw [List.range_succ_eq_map, List.map_cons, List.map_map]
    congr 1
    apply List.map_congr_left
    intro k _
    show windowSum data period (i + 1 + 1 + k) / (period : ℚ) =
      windowSum data period (i + 1 + (k + 1)) / (period : ℚ)
    rw [show i + 1 + 1 + k = i + 1 + (k + 1) from by omega]

/-- C1 counterexample.  `sma([1,3], 3)`: the input is shorter than the
period, and the code returns the **last element** repeated
(`[3, 3]`), not the mean of the whole input (`[2, 2]`). -/
theorem sma_short_input_counterexample :
    sma [1, 3] 3 = some [3, 3] ∧
    ((1 : ℚ) + 3) / 2 = 2 ∧
    sma [1, 3] 3 ≠ some [2, 2] := by
  have h : sma [1, 3] 3 = some [3, 3] := by
    simp [sma, List.getLast?, List.replicate]
  refine ⟨h, by norm_num, ?_⟩
  rw [h]
  intro hcontra
  have := Option.some.inj hcontra
  simp at this

/-- C1 (amended).  For nonempty input strictly shorter than `period`,
`sma` returns a constant series of the same length repeating the **last
element** of the input (and raises on empty input); for input of length
at least `period ≥ 1` it returns `period-1` copies of the first windowed
mean followed by the sliding-window running means (the entry at position
`period-1+k` is the mean of the window of `period` elements ending
there). -/
theorem sma_characterization :
    (∀ (data : List ℚ) (period : ℕ) (x : ℚ), data.getLast? = some x →
      data.length < period →
      sma data period = some (List.replicate data.length x)) ∧
    (∀ period : ℕ, 1 ≤ period → sma [] period = none) ∧
    (∀ (data : List ℚ) (period : ℕ), 1 ≤ period → period ≤ data.length →
      sma data period =
        some (List.replicate (period - 1) (windowSum data period period / period) ++
          (List.range (data.length - period + 1)).map
            (fun k => windowSum data period (period + k) / period))) := by
  refine ⟨?_, ?_, ?_⟩
  · intro data period x hx hlen
    rw [sma, if_pos hlen, hx]
  · intro period hp
    rw [sma, if_pos (by simpa using hp)]
    rfl
  · intro data period hp hlen
    rw [sma, if_neg (not_lt.mpr hlen), if_neg (by omega)]
    dsimp only
    have hw0 : (data.take period).sum = windowSum data period period := by
      simp [windowSum]
    have hloop := smaLoop_eq_windowMeans data period hp
      (data.length - period) period rfl le_rfl
    rw [hw0, hloop, List.append_assoc, List.singleton_append,
      List.range_succ_eq_map, List.map_cons, List.map_map]
    simp only [Nat.add_zero]
    congr 3
    apply List.map_congr_left
    intro k _
    show windowSum data period (period + 1 + k) / (period : ℚ) =
      windowSum data period (period + (k + 1)) / (period : ℚ)
    rw [show period + 1 + k = period + (k + 1) from by omega]

/-- Witness for `sma_characterization`: the short-input case on
`[1, 3]` with period 3, the empty case with period 2, and the long case
`sma([1, 2, 3], 2) = [3/2, 3/2, 5/2]`. -/
theorem sma_characterization_witness :
    ([(1 : ℚ), 3].getLast? = some 3 ∧ [(1 : ℚ), 3].length < 3 ∧
      sma [1, 3] 3 = some (List.replicate 2 3)) ∧
    sma [] 2 = none ∧
    ((1 : ℕ) ≤ 2 ∧ (2 : ℕ) ≤ [(1 : ℚ), 2, 3].length ∧
      sma [1, 2, 3] 2 =
        some (List.replicate 1 (windowSum [1, 2, 3] 2 2 / 2) ++
          (List.range 2).map (fun k => windowSum [1, 2, 3] 2 (2 + k) / 2))) := by
  refine ⟨⟨rfl, by norm_num, ?_⟩, ?_, by norm_num, by norm_num, ?_⟩
  · exact sma_characterization.1 [1, 3] 3 3 rfl (by norm_num)
  · exact sma_characterization.2.1 2 (by norm_num)
  · exact sma_characterization.2.2 [1, 2, 3] 2 (by norm_num) (by norm_num)

/-! ## Python float values with NaN/Infinity (`safe_float`, signals) -/

/-- A Python float: either a finite value (modelled as a rational) or one
of the IEEE special values NaN, +Infinity, -Infinity.  Used where a claim
is specifically about NaN/Infinity handling. -/
inductive PyFloat where
  | finite (q : ℚ)
  | nan
  | inf
  | ninf
deriving DecidableEq

/-- `safe_float` (pythonEngine.ts lines 43-50): NaN and ±Infinity are
coerced to `0.0`; a finite float passes through.  (The `except: return
0.0` branch is unreachable for float input.) -/
def safe_float : PyFloat → ℚ
  | .finite q => q
  | .nan => 0
  | .inf => 0
  | .ninf => 0

/-- Multiplication of a Python float by a finite constant (used for the
`total_reward * 1000.0` rescaling): NaN propagates, infinities stay
infinite for a positive constant. -/
def PyFloat.mulPos (c : ℚ) : PyFloat → PyFloat
  | .finite q => .finite (q * c)
  | .nan => .nan
  | .inf => .inf
  | .ninf => .ninf

/-! ## Order ids: `f"ORD-{n}"` (pythonEngine.ts line 74) -/

/-- Little-endian decimal digits of `n` (empty for 0), with fuel. -/
def decDigitsRev : ℕ → ℕ → List ℕ
  | 0, _ => []
  | fuel + 1, n => if n = 0 then [] else n % 10 :: decDigitsRev fuel (n / 10)

/-- Big-endian decimal digits of `n`, as Python's `str(n)` produces. -/
def decDigits (n : ℕ) : List ℕ :=
  if n = 0 then [0] else (decDigitsRev n n).reverse

/-- Value of a little-endian digit list. -/
def fromDigitsRev : List ℕ → ℕ
  | [] => 0
  | d :: t => d + 10 * fromDigitsRev t

lemma fromDigitsRev_decDigitsRev : ∀ (fuel n : ℕ), n ≤ fuel →
    fromDigitsRev (decDigitsRev fuel n) = n := by
  intro fuel
  induction fuel with
  | zero => intro n h; interval_cases n; rfl
  | succ fuel ih =>
    intro n h
    by_cases hz : n = 0
    · subst hz; rfl
    · rw [decDigitsRev, if_neg hz, fromDigitsRev,
        ih (n / 10) (by omega)]
      omega

/-- `decDigits` is injective: the digit string determines the number. -/
lemma decDigits_injective : Function.Injective decDigits := by
  have hinv : ∀ n : ℕ, fromDigitsRev (decDigits n).reverse = n := by
    intro n
    by_cases hz : n = 0
    · subst hz; rfl
    · rw [decDigits, if_neg hz, List.reverse_reverse,
        fromDigitsRev_decDigitsRev n n le_rfl]
  intro a b hab
  have := hinv a
  rw [hab, hinv b] at this
  exact this.symm

lemma decDigitsRev_lt_ten : ∀ (fuel n : ℕ), ∀ d ∈ decDigitsRev fuel n, d < 10 := by
  intro fuel
  induction fuel with
  | zero => intro n d hd; cases hd
  | succ fuel ih =>
    intro n d hd
    rw [decDigitsRev] at hd
    split_ifs at hd with hz
    · cases hd
    · rcases List.mem_cons.mp hd with hd | hd
      · omega
      · exact ih (n / 10) d hd

lemma decDigits_lt_ten (n : ℕ) : ∀ d ∈ decDigits n, d < 10 := by
  intro d hd
  rw [decDigits] at hd
  split_ifs at hd with hz
  · simp at hd
    omega
  · exact decDigitsRev_lt_ten n n d (List.mem_reverse.mp hd)

lemma digitChar_inj_lt_ten : ∀ a < 10, ∀ b < 10,
    Nat.digitChar a = Nat.digitChar b → a = b := by
  decide

lemma map_digitChar_inj : ∀ (l₁ l₂ : List ℕ),
    (∀ d ∈ l₁, d < 10) → (∀ d ∈ l₂, d < 10) →
    l₁.map Nat.digitChar = l₂.map Nat.digitChar → l₁ = l₂ := by
  intro l₁
  induction l₁ with
  | nil =>
    intro l₂ _ _ h
    cases l₂ with
    | nil => rfl
    | cons b t => simp at h
  | cons a t ih =>
    intro l₂ h₁ h₂ h
    cases l₂ with
    | nil => simp at h
    | cons b t₂ =>
      simp only [List.map_cons, List.cons.injEq] at h
      have ha : a < 10 := h₁ a (List.mem_cons_self a t)
      have hb : b < 10 := h₂ b (List.mem_cons_self b t₂)
      have hab := digitChar_inj_lt_ten a ha b hb h.1
      rw [hab, ih t₂ (fun d hd => h₁ d (List.mem_cons_of_mem a hd))
        (fun d hd => h₂ d (List.mem_cons_of_mem b hd)) h.2]

/-- The order id `f"ORD-{n}"`: the literal prefix `ORD-` followed by the
decimal representation of `n`. -/
def mkOrderId (n : ℕ) : String :=
  "ORD-" ++ ⟨(decDigits n).map Nat.digitChar⟩

lemma mkOrderId_injective : Function.Injective mkOrderId := by
  intro a b hab
  have hdata : ("ORD-".data ++ (decDigits a).map Nat.digitChar) =
      ("ORD-".data ++ (decDigits b).map Nat.digitChar) :=
    congrArg String.data hab
  have hmap := List.append_cancel_left hdata
  exact decDigits_injective
    (map_digitChar_inj (decDigits a) (decDigits b)
      (decDigits_lt_ten a) (decDigits_lt_ten b) hmap)

/-! ## `StrategyContext` (pythonEngine.ts lines 63-116) -/

/-- A raw candle dict as handed to the context (`time`, OHLC, `volume`;
the optional order book is irrelevant to the claims).  Prices are
`PyFloat` so that NaN-carrying data can be expressed. -/
structure Candle where
  time : String
  openPrice : PyFloat
  highPrice : PyFloat
  lowPrice : PyFloat
  closePrice : PyFloat
  volume : ℚ
deriving DecidableEq

/-- A signal appended by `order` / `cancel` / `close_all`. -/
structure Signal where
  time : String
  action : String
  price : Option PyFloat
  size : ℚ
  reason : String
  orderId : Option String := none
  orderType : Option String := none
  limitPrice : Option PyFloat := none
deriving DecidableEq

/-- The `price` argument of `StrategyContext.order`: Python `None`, a
float, or a string (the backward-compat positional form). -/
inductive OrderPrice where
  | nonePrice
  | num (x : PyFloat)
  | strPrice (s : String)
deriving DecidableEq

/-- Mutable state of `StrategyContext.__init__` (pythonEngine.ts 64-67). -/
structure StrategyContext where
  signals : List Signal
  current_candle : Option Candle
  order_counter : ℕ
deriving DecidableEq

/-- `StrategyContext.order` (pythonEngine.ts lines 69-95), parameterized
by `parseFloat`, the model of Python `float(str)` (`none` = ValueError).
Returns the order id and the updated context.  `current_candle = none`
models Python falsiness of `None` (an empty candle dict cannot arise). -/
def ctxOrder (parseFloat : String → Option PyFloat) (ctx : StrategyContext)
    (action : String) (size : ℚ) (price : OrderPrice) (reason : String) :
    String × StrategyContext :=
  let pr : OrderPrice × String :=
    match price, reason with
    | .strPrice s, "" => (.nonePrice, s)
    | p, r => (p, r)
  let counter := ctx.order_counter + 1
  let orderId := mkOrderId counter
  match ctx.current_candle with
  | none => (orderId, { ctx with order_counter := counter })
  | some c =>
      let lt : Option PyFloat × String :=
        match pr.1 with
        | .nonePrice => (none, "MARKET")
        | .num x => (some x, "LIMIT")
        | .strPrice s =>
            match parseFloat s with
            | some v => (some v, "LIMIT")
            | none => (none, "MARKET")
      let signal_price : PyFloat := match lt.1 with | some l => l | none => c.closePrice
      (orderId,
        { ctx with
            order_counter := counter
            signals := ctx.signals ++
              [{ time := c.time, action := action, price := some signal_price,
                 size := size, reason := pr.2, orderId := some orderId,
                 orderType := some lt.2, limitPrice := lt.1 }] })

/-- Arguments of one `order` call. -/
structure OrderCall where
  action : String
  size : ℚ
  price : OrderPrice
  reason : String
deriving DecidableEq

/-- Run a sequence of `order` calls, collecting the returned ids. -/
def runOrders (parseFloat : String → Option PyFloat) :
    StrategyContext → List OrderCall → List String × StrategyContext
  | ctx, [] => ([], ctx)
  | ctx, a :: rest =>
      let r1 := ctxOrder parseFloat ctx a.action a.size a.price a.reason
      let rr := runOrders parseFloat r1.2 rest
      (r1.1 :: rr.1, rr.2)

lemma ctxOrder_fst (pf : String → Option PyFloat) (ctx : StrategyContext)
    (a : String) (s : ℚ) (p : OrderPrice) (r : String) :
    (ctxOrder pf ctx a s p r).1 = mkOrderId (ctx.order_counter + 1) := by
  cases h : ctx.current_candle <;> simp [ctxOrder, h]

lemma ctxOrder_counter (pf : String → Option PyFloat) (ctx : StrategyContext)
    (a : String) (s : ℚ) (p : OrderPrice) (r : String) :
    (ctxOrder pf ctx a s p r).2.order_counter = ctx.order_counter + 1 := by
  cases h : ctx.current_candle <;> simp [ctxOrder, h]

lemma ctxOrder_candle (pf : String → Option PyFloat) (ctx : StrategyContext)
    (a : String) (s : ℚ) (p : OrderPrice) (r : String) :
    (ctxOrder pf ctx a s p r).2.current_candle = ctx.current_candle := by
  cases h : ctx.current_candle <;> simp [ctxOrder, h]

lemma ctxOrder_signals_of_no_candle (pf : String → Option PyFloat)
    (ctx : StrategyContext) (a : String) (s : ℚ) (p : OrderPrice) (r : String)
    (h : ctx.current_candle = none) :
    (ctxOrder pf ctx a s p r).2.signals = ctx.signals := by
  simp [ctxOrder, h]

lemma runOrders_counter (pf : String → Option PyFloat) :
    ∀ (calls : List OrderCall) (ctx : StrategyContext),
      (runOrders pf ctx calls).2.order_counter =
        ctx.order_counter + calls.length := by
  intro calls
  induction calls with
  | nil => intro ctx; simp [runOrders]
  | cons a rest ih =>
    intro ctx
    simp only [runOrders, List.length_cons]
    rw [ih, ctxOrder_counter]
    omega

lemma runOrders_ids (pf : String → Option PyFloat) :
    ∀ (calls : List OrderCall) (ctx : StrategyContext),
      (runOrders pf ctx calls).1 =
        (List.range calls.length).map
          (fun i => mkOrderId (ctx.order_counter + i + 1)) := by
  intro calls
  induction calls with
  | nil => intro ctx; simp [runOrders]
  | cons a rest ih =>
    intro ctx
    simp only [runOrders, List.length_cons]
    rw [ih, ctxOrder_fst, ctxOrder_counter,
      List.range_succ_eq_map, List.map_cons, List.map_map]
    congr 1
    apply List.map_congr_left
    intro k _
    show mkOrderId (ctx.order_counter + 1 + k + 1) =
      mkOrderId (ctx.order_counter + (k + 1) + 1)
    congr 1
    omega

lemma runOrders_signals_of_no_candle (pf : String → Option PyFloat) :
    ∀ (calls : List OrderCall) (ctx : StrategyContext),
      ctx.current_candle = none →
      (runOrders pf ctx calls).2.signals = ctx.signals := by
  intro calls
  induction calls with
  | nil => intro ctx _; simp [runOrders]
  | cons a rest ih =>
    intro ctx h
    simp only [runOrders]
    rw [ih _ (by rw [ctxOrder_candle]; exact h),
      ctxOrder_signals_of_no_candle pf ctx a.action a.size a.price a.reason h]

/-- C9.  Every sequence of `order` calls returns the ids
`ORD-(c+1), …, ORD-(c+k)` (`c` the starting counter), so ids are fresh,
pairwise distinct and carry strictly increasing counters, the counter
advances by one per call — and when no current candle is set, no signal
is appended, so the returned ids never appear in the signal log. -/
theorem order_ids_fresh_and_unique (pf : String → Option PyFloat)
    (ctx : StrategyContext) (calls : List OrderCall) :
    (runOrders pf ctx calls).2.order_counter =
        ctx.order_counter + calls.length ∧
    (runOrders pf ctx calls).1 =
        (List.range calls.length).map
          (fun i => mkOrderId (ctx.order_counter + i + 1)) ∧
    (runOrders pf ctx calls).1.Nodup ∧
    (ctx.current_candle = none →
      (runOrders pf ctx calls).2.signals = ctx.signals) := by
  refine ⟨runOrders_counter pf calls ctx, runOrders_ids pf calls ctx, ?_, ?_⟩
  · rw [runOrders_ids pf calls ctx]
    apply List.Nodup.map
    · intro x y hxy
      have := mkOrderId_injective hxy
      omega
    · exact List.nodup_range _
  · exact runOrders_signals_of_no_candle pf calls ctx

/-- Witness for `order_ids_fresh_and_unique`: two `order` calls on a
context with no current candle return `ORD-1`, `ORD-2` and leave the
(empty) signal log unchanged. -/
theorem order_ids_fresh_and_unique_witness :
    (⟨[], none, 0⟩ : StrategyContext).current_candle = none ∧
    (runOrders (fun _ => none) ⟨[], none, 0⟩
        [⟨"BUY", 1, .nonePrice, ""⟩, ⟨"SELL", 1, .nonePrice, ""⟩]).2.signals
      = [] ∧
    (runOrders (fun _ => none) ⟨[], none, 0⟩
        [⟨"BUY", 1, .nonePrice, ""⟩, ⟨"SELL", 1, .nonePrice, ""⟩]).1.Nodup := by
  have h := order_ids_fresh_and_unique (fun _ => none) ⟨[], none, 0⟩
    [⟨"BUY", 1, .nonePrice, ""⟩, ⟨"SELL", 1, .nonePrice, ""⟩]
  exact ⟨rfl, h.2.2.2 rfl, h.2.2.1⟩

/-! ## RL history records and signal serialization (pythonEngine.ts
lines 474-501, 577) -/

/-- One entry of the RL training history (`step_data`). -/
structure RLStepData where
  episode : ℕ
  totalReward : ℚ
  epsilon : ℚ
  winRate : ℚ
deriving DecidableEq

/-- `step_data` construction (pythonEngine.ts lines 476-481):
`safe_float` is applied to `total_reward * 1000.0`, `agent.epsilon` and
`win_rate`. -/
def mkStepData (e : ℕ) (total_reward : PyFloat) (epsilon : PyFloat)
    (win_rate : PyFloat) : RLStepData :=
  { episode := e + 1
    totalReward := safe_float (total_reward.mulPos 1000)
    epsilon := safe_float epsilon
    winRate := safe_float win_rate }

/-- Serialization of the signal log (pythonEngine.ts line 577):
`json.dumps(ctx.signals, cls=NumpyEncoder)` emits the signal values
unchanged — `NumpyEncoder` only converts numpy container types, and
`json.dumps` writes float NaN/Infinity through as `NaN`/`Infinity`
literals; no `safe_float` is applied on this path. -/
def serializeSignals (signals : List Signal) : List Signal := signals

/-- C5 counterexample.  A LIMIT order with price `float('nan')` placed
while a candle is current appends a signal whose price is NaN, and the
signal log is serialized without coercion, so the task result retains
the NaN instead of 0.  (In the worker this uncoerced `NaN` literal then
makes `JSON.parse` throw, surfacing as a task error.) -/
theorem nan_signal_price_counterexample :
    (serializeSignals
        (ctxOrder (fun _ => none)
            ⟨[], some ⟨"t0", .finite 1, .finite 1, .finite 1, .finite 1, 0⟩, 0⟩
            "BUY" 1 (.num .nan) "entry").2.signals).map Signal.price
      = [some PyFloat.nan] ∧
    some PyFloat.nan ≠ some (PyFloat.finite 0) := by
  constructor
  · rfl
  · intro h
    cases Option.some.inj h

/-- C5 (amended).  `safe_float` coerces NaN and ±Infinity to 0, and the
RL history records apply it to each float field (`totalReward`,
`epsilon`, `winRate`); the strategy signal log is serialized without
this coercion (see the counterexample). -/
theorem rl_history_sanitizes_nonfinite (e : ℕ) (tr eps wr : PyFloat) :
    ((tr = .nan ∨ tr = .inf ∨ tr = .ninf) →
      (mkStepData e tr eps wr).totalReward = 0) ∧
    ((eps = .nan ∨ eps = .inf ∨ eps = .ninf) →
      (mkStepData e tr eps wr).epsilon = 0) ∧
    ((wr = .nan ∨ wr = .inf ∨ wr = .ninf) →
      (mkStepData e tr eps wr).winRate = 0) := by
  refine ⟨?_, ?_, ?_⟩ <;>
    rintro (rfl | rfl | rfl) <;> rfl

/-- Witness for `rl_history_sanitizes_nonfinite` at
`mkStepData 0 nan inf ninf`. -/
theorem rl_history_sanitizes_nonfinite_witness :
    (PyFloat.nan = PyFloat.nan ∨ PyFloat.nan = PyFloat.inf ∨
      PyFloat.nan = PyFloat.ninf) ∧
    (mkStepData 0 .nan .inf .ninf).totalReward = 0 ∧
    (mkStepData 0 .nan .inf .ninf).epsilon = 0 ∧
    (mkStepData 0 .nan .inf .ninf).winRate = 0 := by
  have h := rl_history_sanitizes_nonfinite 0 .nan .inf .ninf
  exact ⟨Or.inl rfl, h.1 (Or.inl rfl), h.2.1 (Or.inr (Or.inl rfl)),
    h.2.2 (Or.inr (Or.inr rfl))⟩

/-! ## Replay rolling window and `max_lookback` (pythonEngine.ts
lines 552-557, 569-575) -/

/-- Python slice `l[s:]` for an integer start index `s` (a negative
start counts from the end; both directions clamp). -/
def pySliceFrom (l : List Candle) (s : ℤ) : List Candle :=
  if 0 ≤ s then l.drop s.toNat
  else l.drop ((l.length : ℤ) + s).toNat

/-- One iteration of the replay loop's window maintenance
(pythonEngine.ts lines 570-573): append the new candle, then truncate to
the last `max_lookback_val` candles only when `max_lookback_val` is
truthy (`None` and `0` are falsy in Python) and the window exceeds it.
`mlv = none` models both an absent `max_lookback` and a failed `int()`
conversion (lines 552-557 set `max_lookback_val = None` in either
case). -/
def lookbackStep (mlv : Option ℤ) (window : List Candle) (c : Candle) :
    List Candle :=
  let w := window ++ [c]
  match mlv with
  | none => w
  | some v => if v ≠ 0 ∧ (w.length : ℤ) > v then pySliceFrom w (-v) else w

/-- The successive windows handed to the strategy entry point, one per
replayed candle. -/
def replayWindows (mlv : Option ℤ) :
    List Candle → List Candle → List (List Candle)
  | _, [] => []
  | window, c :: rest =>
      let w := lookbackStep mlv window c
      w :: replayWindows mlv w rest

lemma lookbackStep_untruncated (mlv : Option ℤ)
    (h : mlv = none ∨ mlv = some 0) (window : List Candle) (c : Candle) :
    lookbackStep mlv window c = window ++ [c] := by
  rcases h with rfl | rfl
  · rfl
  · simp [lookbackStep]

lemma replayWindows_full_prefixes (mlv : Option ℤ)
    (h : mlv = none ∨ mlv = some 0) :
    ∀ (rest window : List Candle),
      replayWindows mlv window rest =
        (List.range rest.length).map (fun i => window ++ rest.take (i + 1)) := by
  intro rest
  induction rest with
  | nil => intro window; simp [replayWindows]
  | cons c rest ih =>
    intro window
    simp only [replayWindows, lookbackStep_untruncated mlv h window c,
      List.length_cons]
    rw [ih (window ++ [c]), List.range_succ_eq_map, List.map_cons,
      List.map_map]
    congr 1
    apply List.map_congr_left
    intro k _
    show window ++ [c] ++ rest.take (k + 1) =
      window ++ (c :: rest).take (k + 1 + 1)
    rw [List.take_succ_cons, List.append_assoc, List.singleton_append]

/-- C10.  When `max_lookback` is 0 or fails integer conversion (both
making `max_lookback_val` falsy), the rolling-window cap is disabled: at
every bar `i` the entry point receives the full history
`candles.take (i+1)` of all candles processed so far. -/
theorem maxLookback_zero_disables_cap (mlv : Option ℤ)
    (h : mlv = none ∨ mlv = some 0) (candles : List Candle) :
    replayWindows mlv [] candles =
      (List.range candles.length).map (fun i => candles.take (i + 1)) := by
  rw [replayWindows_full_prefixes mlv h candles []]
  apply List.map_congr_left
  intro k _
  simp

/-- Witness for `maxLookback_zero_disables_cap` at `max_lookback = 0`
with two candles: the windows are the two full prefixes. -/
theorem maxLookback_zero_disables_cap_witness :
    ((some (0 : ℤ) = none ∨ some (0 : ℤ) = some 0) ∧
      replayWindows (some 0) []
          [⟨"t1", .finite 1, .finite 1, .finite 1, .finite 1, 0⟩,
           ⟨"t2", .finite 2, .finite 2, .finite 2, .finite 2, 0⟩] =
        (List.range 2).map
          (fun i =>
            ([⟨"t1", .finite 1, .finite 1, .finite 1, .finite 1, 0⟩,
              ⟨"t2", .finite 2, .finite 2, .finite 2, .finite 2, 0⟩] :
                List Candle).take (i + 1))) := by
  exact ⟨Or.inr rfl, maxLookback_zero_disables_cap (some 0) (Or.inr rfl) _⟩

/-! ## `runPythonStrategyBatch` (pythonEngine.ts lines 843-883) -/

/-- Outcome of running one batch task on a worker: the run resolves with
a signal log, or rejects with an error message (a thrown Python error is
surfaced by the worker as a rejection). -/
inductive TaskOutcome where
  | ok (signals : List Signal)
  | throws (msg : String)
deriving DecidableEq

/-- One filled slot of the dispatcher's result array:
`{signals}` on success, `{signals: null, error}` on failure
(pythonEngine.ts lines 862-866). -/
structure BatchResult where
  signals : Option (List Signal)
  error : Option String
deriving DecidableEq

/-- How one claimed task fills its slot (the `try/catch` of lines
862-866). -/
def runTaskResult : TaskOutcome → BatchResult
  | .ok s => { signals := some s, error := none }
  | .throws m => { signals := none, error := some m }

/-- The claim loop of `runPythonStrategyBatch`, with the canonical
sequential schedule.  Each worker claims the next index from the shared
`nextIndex` counter and writes only its own slot, so in the absence of
cancellation the filled result array is independent of the interleaving
and of the pool size; the pool size therefore only matters through
cancellation timing and does not appear here.  `shouldCancel` (checked
before each claim, line 858) is a predicate on the number of completed
tasks; `none` models a slot of `new Array(tasks.length)` that is never
assigned because the workers stopped claiming. -/
def runBatchAux (shouldCancel : ℕ → Bool) :
    List TaskOutcome → ℕ → List (Option BatchResult)
  | [], _ => []
  | t :: ts, completed =>
      if shouldCancel completed then (t :: ts).map (fun _ => none)
      else some (runTaskResult t) :: runBatchAux shouldCancel ts (completed + 1)

/-- `runPythonStrategyBatch`: result array over the submitted tasks. -/
def runPythonStrategyBatch (tasks : List TaskOutcome)
    (shouldCancel : ℕ → Bool) : List (Option BatchResult) :=
  runBatchAux shouldCancel tasks 0

/-- C6 counterexample.  With a cancellation predicate that is already
true at submission, a single submitted task yields **no** result entry —
its slot stays unassigned — so the result array does not contain one
success-or-failure entry per task for every cancellation predicate. -/
theorem runBatch_cancel_counterexample :
    runPythonStrategyBatch [.ok []] (fun _ => true) = [none] ∧
    ∀ r : BatchResult,
      runPythonStrategyBatch [.ok []] (fun _ => true) ≠ [some r] := by
  constructor
  · rfl
  · intro r h
    rw [show runPythonStrategyBatch [.ok []] (fun _ => true) = [none] from rfl]
      at h
    cases List.cons.injEq _ _ _ _ ▸ h
    simp_all

/-- C6 (amended).  When cancellation never fires, the dispatcher returns
exactly one entry per submitted task, in input order, each slot filled
solely from its own task — so a throwing task yields an error entry at
its own index and leaves every sibling's entry unchanged. -/
theorem runBatch_one_entry_per_task (tasks : List TaskOutcome)
    (shouldCancel : ℕ → Bool) (h : ∀ n, shouldCancel n = false) :
    (runPythonStrategyBatch tasks shouldCancel).length = tasks.length ∧
    runPythonStrategyBatch tasks shouldCancel =
      tasks.map (fun t => some (runTaskResult t)) := by
  have key : ∀ (ts : List TaskOutcome) (n : ℕ),
      runBatchAux shouldCancel ts n = ts.map (fun t => some (runTaskResult t)) := by
    intro ts
    induction ts with
    | nil => intro n; rfl
    | cons t ts ih =>
      intro n
      rw [runBatchAux, h n, ih (n + 1)]
      simp
  refine ⟨?_, key tasks 0⟩
  rw [runPythonStrategyBatch, key tasks 0, List.length_map]

/-- Witness for `runBatch_one_entry_per_task`: three tasks where the
middle one throws; the result has three entries, an error at index 1 and
successes at 0 and 2. -/
theorem runBatch_one_entry_per_task_witness :
    (∀ n : ℕ, (fun _ : ℕ => false) n = false) ∧
    runPythonStrategyBatch [.ok [], .throws "boom", .ok []]
        (fun _ => false) =
      [some { signals := some [], error := none },
       some { signals := none, error := some "boom" },
       some { signals := some [], error := none }] := by
  have h := runBatch_one_entry_per_task [.ok [], .throws "boom", .ok []]
    (fun _ => false) (fun _ => rfl)
  exact ⟨fun _ => rfl, h.2⟩

/-! ## Standard-mode task execution and error containment
(pythonEngine.ts lines 414-652) -/

/-- The serialized result of one strategy task: the whole signal log on
success, or a single error record with the traceback (the
`except Exception` handler at lines 650-652 replaces the entire result
with `[{"error": trace}]`). -/
inductive TaskResult where
  | ok (signals : List Signal)
  | error (trace : String)
deriving DecidableEq

/-- The replay loop (lines 569-575): for each candle, extend the rolling
window, set the context's current candle, and invoke the entry point.
The entry point (user code) either returns an updated context or raises
(`Except.error` carries the traceback); the first raise aborts the
remaining bars. -/
def replayLoop (onTick : StrategyContext → List Candle → Except String StrategyContext)
    (mlv : Option ℤ) :
    List Candle → List Candle → StrategyContext → Except String StrategyContext
  | _, [], ctx => .ok ctx
  | window, c :: rest, ctx =>
      let w := lookbackStep mlv window c
      match onTick { ctx with current_candle := some c } w with
      | .error e => .error e
      | .ok ctx2 => replayLoop onTick mlv w rest ctx2

/-- The fresh context of line 512. -/
def initCtx : StrategyContext := ⟨[], none, 0⟩

/-- One standard-mode task (the `try` body, lines 414-652): user-code
evaluation / entry-point resolution / instantiation (`loadError`), the
optional start hook, then the replay; only on full success is
`ctx.signals` serialized, and any raise anywhere yields the single
error result instead. -/
def runStrategyTask (loadError : Option String)
    (onStart : StrategyContext → Except String StrategyContext)
    (onTick : StrategyContext → List Candle → Except String StrategyContext)
    (mlv : Option ℤ) (candles : List Candle) : TaskResult :=
  match loadError with
  | some e => .error e
  | none =>
      match onStart initCtx with
      | .error e => .error e
      | .ok ctx1 =>
          match replayLoop onTick mlv [] candles ctx1 with
          | .error e => .error e
          | .ok ctx2 => .ok ctx2.signals

/-- C7.  An exception raised at any phase — load/resolution/instantiation,
the start hook, or any replay bar — makes the whole task result the
single error result carrying that (first) traceback; and a signal log is
returned only when every phase succeeded, in which case it is the full
log of the completed replay — never a partial one. -/
theorem task_error_discards_partial_signals (loadError : Option String)
    (onStart : StrategyContext → Except String StrategyContext)
    (onTick : StrategyContext → List Candle → Except String StrategyContext)
    (mlv : Option ℤ) (candles : List Candle) :
    (∀ e, loadError = some e →
      runStrategyTask loadError onStart onTick mlv candles = .error e) ∧
    (∀ e, loadError = none → onStart initCtx = .error e →
      runStrategyTask loadError onStart onTick mlv candles = .error e) ∧
    (∀ ctx1 e, loadError = none → onStart initCtx = .ok ctx1 →
      replayLoop onTick mlv [] candles ctx1 = .error e →
      runStrategyTask loadError onStart onTick mlv candles = .error e) ∧
    (∀ sigs, runStrategyTask loadError onStart onTick mlv candles = .ok sigs →
      loadError = none ∧ ∃ ctx1 ctx2, onStart initCtx = .ok ctx1 ∧
        replayLoop onTick mlv [] candles ctx1 = .ok ctx2 ∧
        sigs = ctx2.signals) := by
  refine ⟨?_, ?_, ?_, ?_⟩
  · intro e he
    rw [runStrategyTask.eq_def, he]
  · intro e hl hs
    rw [runStrategyTask.eq_def, hl]
    simp only [hs]
  · intro ctx1 e hl hs hr
    rw [runStrategyTask.eq_def, hl]
    simp only [hs, hr]
  · intro sigs hok
    rw [runStrategyTask.eq_def] at hok
    match hl : loadError with
    | some e => exact TaskResult.noConfusion hok
    | none =>
        refine ⟨rfl, ?_⟩
        cases hs : onStart initCtx with
        | error e =>
            rw [hs] at hok
            exact TaskResult.noConfusion hok
        | ok ctx1 =>
            rw [hs] at hok
            have hok2 : (match replayLoop onTick mlv [] candles ctx1 with
                | Except.error e => TaskResult.error e
                | Except.ok ctx2 => TaskResult.ok ctx2.signals) =
                TaskResult.ok sigs := hok
            cases hr : replayLoop onTick mlv [] candles ctx1 with
            | error e =>
                rw [hr] at hok2
                exact TaskResult.noConfusion hok2
            | ok ctx2 =>
                rw [hr] at hok2
                exact ⟨ctx1, ctx2, rfl, hr, (TaskResult.ok.inj hok2).symm⟩

/-- Witness for `task_error_discards_partial_signals`: a strategy that
appends one signal on the first bar and raises on the second returns
the bare error result — the first bar's signal does not appear. -/
theorem task_error_discards_partial_signals_witness :
    ((none : Option String) = none ∧
      (fun ctx => Except.ok ctx :
          StrategyContext → Except String StrategyContext) initCtx =
        .ok initCtx ∧
      replayLoop
        (fun ctx w =>
          if w.length = 1 then
            .ok { ctx with signals := ctx.signals ++
              [{ time := "t1", action := "BUY", price := none, size := 1,
                 reason := "first bar" }] }
          else .error "boom")
        none []
        [⟨"t1", .finite 1, .finite 1, .finite 1, .finite 1, 0⟩,
         ⟨"t2", .finite 2, .finite 2, .finite 2, .finite 2, 0⟩]
        initCtx = .error "boom") ∧
    runStrategyTask none (fun ctx => Except.ok ctx)
        (fun ctx w =>
          if w.length = 1 then
            .ok { ctx with signals := ctx.signals ++
              [{ time := "t1", action := "BUY", price := none, size := 1,
                 reason := "first bar" }] }
          else .error "boom")
        none
        [⟨"t1", .finite 1, .finite 1, .finite 1, .finite 1, 0⟩,
         ⟨"t2", .finite 2, .finite 2, .finite 2, .finite 2, 0⟩]
      = .error "boom" := by
  refine ⟨⟨rfl, rfl, rfl⟩, ?_⟩
  exact (task_error_discards_partial_signals none (fun ctx => Except.ok ctx)
      _ none _).2.2.1 initCtx "boom" rfl rfl rfl

/-! ## `MicroModel` and `DQNAgent.replay` (pythonEngine.ts lines 135-270)

Matrices are row-major `List (List ℚ)`; the numpy operations are spelled
out index-wise (`getD _ 0` for in-range indexing). -/

/-- Entry `j` of `row · B` (one output of `np.dot` for a 2-D `B`). -/
def dotRowCol (row : List ℚ) (B : List (List ℚ)) (j : ℕ) : ℚ :=
  (List.zipWith (fun a brow => a * brow.getD j 0) row B).sum

/-- `np.dot` on 2-D arrays. -/
def matMul (A B : List (List ℚ)) : List (List ℚ) :=
  A.map (fun row => (List.range (B.headD []).length).map (dotRowCol row B))

/-- `.T` (transpose). -/
def matTr (A : List (List ℚ)) : List (List ℚ) :=
  (List.range (A.headD []).length).map (fun i => A.map (fun row => row.getD i 0))

/-- Broadcast addition of a bias row to every row (`+ self.b1`). -/
def addBias (A : List (List ℚ)) (b : List ℚ) : List (List ℚ) :=
  A.map (fun row => List.zipWith (· + ·) row b)

/-- `np.maximum(0, z)` (ReLU). -/
def reluMat (A : List (List ℚ)) : List (List ℚ) :=
  A.map (List.map (fun z => max 0 z))

/-- `np.sum(A, axis=0, keepdims=True)`, as the single resulting row. -/
def colSums (A : List (List ℚ)) : List ℚ :=
  (List.range (A.headD []).length).map
    (fun j => (A.map (fun row => row.getD j 0)).sum)

/-- `dA * (z > 0)` — the ReLU derivative mask (strict at 0). -/
def reluMask (dA z : List (List ℚ)) : List (List ℚ) :=
  List.zipWith (List.zipWith (fun d zv => if 0 < zv then d else 0)) dA z

/-- `np.clip(A, -1.0, 1.0)`. -/
def clipMat (A : List (List ℚ)) : List (List ℚ) :=
  A.map (List.map (fun x => max (-1) (min 1 x)))

/-- Elementwise difference. -/
def subMat (A B : List (List ℚ)) : List (List ℚ) :=
  List.zipWith (List.zipWith (· - ·)) A B

/-- Elementwise `c * A`. -/
def scaleMat (c : ℚ) (A : List (List ℚ)) : List (List ℚ) :=
  A.map (List.map (fun x => c * x))

/-- Elementwise `A / c`. -/
def divMat (A : List (List ℚ)) (c : ℚ) : List (List ℚ) :=
  A.map (List.map (fun x => x / c))

/-- Row-wise difference of bias rows. -/
def subRow (a b : List ℚ) : List ℚ := List.zipWith (· - ·) a b

/-- `np.mean(A**2)`: sum of squared entries over the element count. -/
def meanSq (A : List (List ℚ)) : ℚ :=
  ((A.map (fun row => (row.map (fun x => x * x)).sum)).sum) /
    ((A.length * (A.headD []).length : ℕ) : ℚ)

/-- `np.max` of one row. -/
def rowMax (l : List ℚ) : ℚ := l.foldl max (l.headD 0)

/-- `MicroModel` weights (pythonEngine.ts lines 135-147; the random He
initialization of `__init__` is not modelled — weights are state). -/
structure MicroModel where
  W1 : List (List ℚ)
  b1 : List ℚ
  W2 : List (List ℚ)
  b2 : List ℚ
  lr : ℚ
deriving DecidableEq

/-- The cache `{X, z1, a1, z2}` stored by `forward`. -/
structure ForwardCache where
  X : List (List ℚ)
  z1 : List (List ℚ)
  a1 : List (List ℚ)
  z2 : List (List ℚ)
deriving DecidableEq

/-- `MicroModel.forward` (lines 148-155). -/
def MicroModel.forward (m : MicroModel) (X : List (List ℚ)) : ForwardCache :=
  let z1 := addBias (matMul X m.W1) m.b1
  let a1 := reluMat z1
  let z2 := addBias (matMul a1 m.W2) m.b2
  { X := X, z1 := z1, a1 := a1, z2 := z2 }

/-- `MicroModel.backward` (lines 157-181): two-layer backprop with
gradient clipping on the weight matrices (not the biases) and SGD
updates `W -= lr * (dW / m)`. -/
def MicroModel.backward (m : MicroModel) (cache : ForwardCache)
    (dLoss : List (List ℚ)) : MicroModel :=
  let mB : ℚ := dLoss.length
  let dW2 := matMul (matTr cache.a1) dLoss
  let db2 := colSums dLoss
  let da1 := matMul dLoss (matTr m.W2)
  let dz1 := reluMask da1 cache.z1
  let dW1 := matMul (matTr cache.X) dz1
  let db1 := colSums dz1
  let dW1c := clipMat dW1
  let dW2c := clipMat dW2
  { m with
      W1 := subMat m.W1 (scaleMat m.lr (divMat dW1c mB))
      b1 := subRow m.b1 ((divMat [db1] mB).headD [] |>.map (fun x => m.lr * x))
      W2 := subMat m.W2 (scaleMat m.lr (divMat dW2c mB))
      b2 := subRow m.b2 ((divMat [db2] mB).headD [] |>.map (fun x => m.lr * x)) }

/-- One replay-buffer transition. -/
structure Transition where
  state : List ℚ
  action : ℕ
  reward : ℚ
  next_state : List ℚ
  done : Bool
deriving DecidableEq

/-- The `DQNAgent` state relevant to `replay` (lines 207-270). -/
structure DQNAgent where
  gamma : ℚ
  epsilon : ℚ
  batch_size : ℕ
  model : MicroModel
  memory : List Transition
deriving DecidableEq

/-- `DQNAgent.replay` (lines 235-270).  `random.sample` is modelled by
passing the sampled `minibatch` as an argument.  Note that the second
`forward` (on the next states) overwrites `self.cache`, so `backward`
runs on the next-state cache, exactly as the source does. -/
def DQNAgent.replay (agent : DQNAgent) (minibatch : List Transition) :
    ℚ × DQNAgent :=
  if agent.memory.length < agent.batch_size then (0, agent)
  else
    let states := minibatch.map (·.state)
    let next_states := minibatch.map (·.next_state)
    let fwCurrent := agent.model.forward states
    let current_qs := fwCurrent.z2
    let fwNext := agent.model.forward next_states
    let max_next_qs := fwNext.z2.map rowMax
    let target_qs :=
      (current_qs.zip (minibatch.zip max_next_qs)).map
        (fun p =>
          (List.range p.1.length).map (fun j =>
            if j = p.2.1.action then
              (if p.2.1.done then p.2.1.reward
               else p.2.1.reward + agent.gamma * p.2.2)
            else p.1.getD j 0))
    let d_loss := subMat current_qs target_qs
    let model2 := agent.model.backward fwNext d_loss
    (meanSq d_loss, { agent with model := model2 })

/-- C8.  While the replay buffer holds strictly fewer than `batch_size`
transitions, `replay` returns loss 0 and leaves the agent — in
particular all of `W1`, `b1`, `W2`, `b2` — unchanged. -/
theorem replay_noop_below_batchSize (agent : DQNAgent)
    (minibatch : List Transition)
    (h : agent.memory.length < agent.batch_size) :
    (agent.replay minibatch).1 = 0 ∧
    (agent.replay minibatch).2 = agent ∧
    (agent.replay minibatch).2.model.W1 = agent.model.W1 ∧
    (agent.replay minibatch).2.model.b1 = agent.model.b1 ∧
    (agent.replay minibatch).2.model.W2 = agent.model.W2 ∧
    (agent.replay minibatch).2.model.b2 = agent.model.b2 := by
  simp only [DQNAgent.replay, if_pos h]
  simp

/-- The sample agent of the witness below: buffer of 1 transition,
`batch_size = 32`. -/
def sampleAgent : DQNAgent :=
  { gamma := 95 / 100, epsilon := 1, batch_size := 32,
    model := { W1 := [[1]], b1 := [0], W2 := [[1]], b2 := [0],
               lr := 1 / 1000 },
    memory := [{ state := [0], action := 0, reward := 0,
                 next_state := [0], done := false }] }

/-- Witness for `replay_noop_below_batchSize`: an agent whose buffer
holds 1 transition with `batch_size = 32`. -/
theorem replay_noop_below_batchSize_witness :
    sampleAgent.memory.length < sampleAgent.batch_size ∧
    (sampleAgent.replay []).1 = 0 ∧
    (sampleAgent.replay []).2 = sampleAgent := by
  have h := replay_noop_below_batchSize sampleAgent [] (by norm_num [sampleAgent])
  exact ⟨by norm_num [sampleAgent], h.1, h.2.1⟩

end QuantAI
